import Mathlib

/-!
# uLog: the call-site registry and its enable/disable engine

A shallow embedding of `uLog.h` (single header, GCC + C11).

* A C string is the list of bytes found at the pointer, up to but excluding the
  terminating NUL; `message[0]` of the empty string is that NUL.
* Plain `char` is the signed 8-bit type of GCC on x86: a byte `b >= 128` reads as
  `b - 256`, and an `int` stored into a `char` is reduced modulo `2^8` into
  `[-128, 127]`.
* Entries are statically allocated objects; memory is a map from addresses to
  entries, `NULL` is `none`.
* `regcomp`/`regexec` (libc) and the arguments of `fprintf` are parameters.
* `int` counters are unbounded integers: they count statically allocated entries.
* Loops that follow `next` pointers take fuel; `none` means the loop did not
  finish within the fuel (or the code left defined behaviour).
-/

namespace uLog

/-! ## Data model -/

/-- Bytes of a C string, terminating NUL excluded. -/
abbrev CString := List Nat

/-- Address of a statically allocated `uLog_entry`. -/
abbrev Addr := Nat

/-- A `FILE*` handle. -/
abbrev FILE := Nat

/-- One variadic argument of a log call: an `int`, a string, or a `double` given as
a decimal `mantissa * 10 ^ exponent`. -/
inductive Arg where
  | int (v : Int)
  | str (s : List Nat)
  | double (mantissa : Int) (exponent : Int)
deriving DecidableEq

/-- Variadic arguments of a log call. -/
abbrev Args := List Arg

/-- Bytes of a string literal. -/
def cstr (s : String) : CString := s.toList.map Char.toNat

/-- The value of a byte read through plain (signed) `char`. -/
def char_of_byte (b : Nat) : Int :=
  if b % 256 < 128 then ((b % 256 : Nat) : Int) else ((b % 256 : Nat) : Int) - 256

/-- Conversion of an `int` to plain (signed) `char`, as GCC does it. -/
def int_to_char (v : Int) : Int := (v + 128) % 256 - 128

/-- Value of `message[0]`, promoted to `int`. -/
def message0 (message : CString) : Int :=
  match message with
  | [] => 0
  | b :: _ => char_of_byte b

/-- The struct `uLog_entry`: `{ char enabled; const char* message; uLog_entry* next; }`. -/
structure uLog_entry where
  enabled : Int
  message : CString
  next : Option Addr

/-- One call `fprintf(file, format, args...)`. -/
structure FprintfCall where
  file : FILE
  format : CString
  args : Args
deriving DecidableEq

/-- The shared data `uLog_` together with the memory holding the entries and the
record of what was written. -/
structure State where
  mem : Addr → uLog_entry
  registry : Option Addr
  file : Option FILE
  level : Int
  out : List FprintfCall

/-- The initialiser `uLog_ = {NULL, NULL, 5}` over a memory of entries. -/
def uLog_ (mem : Addr → uLog_entry) : State :=
  { mem := mem, registry := none, file := none, level := 5, out := [] }

/-- The initialiser `static uLog_entry _entry = { 0, _message };` of a call site. -/
def static_entry (_message : CString) : uLog_entry :=
  { enabled := 0, message := _message, next := none }

/-- The handle `stderr`. -/
def stderr : FILE := 2

/-- The startup function `uLog_init`. -/
def uLog_init (s : State) : State := { s with file := some stderr }

/-- The function `uLog_set_file`. -/
def uLog_set_file (file : Option FILE) (s : State) : State := { s with file := file }

/-- The body of a log call `ULOG(_message, _args...)` whose static entry lives at
`_entry`: print when the entry is enabled and a file is set. -/
def ULOG (_entry : Addr) (_message : CString) (_args : Args) (s : State) : State :=
  if (s.mem _entry).enabled ≠ 0 then
    match s.file with
    | some f => { s with out := s.out ++ [{ file := f, format := _message ++ [10], args := _args }] }
    | none => s
  else s

/-! ## Level codec -/

/-- The array `ULOG_LEVELS = "0acewnid"`, terminating NUL included. -/
def ULOG_LEVELS : List Int := [48, 97, 99, 101, 119, 110, 105, 100, 0]

/-- The loop of `uLog_level_of`, started at `level`. An index outside the array or
running out of fuel gives `none`. -/
def uLog_level_of_loop (message : CString) : Nat → Nat → Option Int
  | 0, _ => none
  | fuel + 1, level =>
    match ULOG_LEVELS[level]? with
    | none => none
    | some c =>
      if c ≠ Int.lor (message0 message) (97 - 65) then
        match ULOG_LEVELS[level + 1]? with
        | none => none
        | some c1 => if c1 = 0 then some (-1) else uLog_level_of_loop message fuel (level + 1)
      else some (level : Int)

/-- The function `uLog_level_of`. -/
def uLog_level_of (message : CString) : Option Int :=
  uLog_level_of_loop message 9 0

/-! ## Registry and engines -/

/-- The comparison `uLog_level_of(entry->message) <= uLog_.level`, as the `int` 0 or 1. -/
def level_le (rank level : Int) : Int := if rank ≤ level then 1 else 0

/-- Store into `entry->enabled`. -/
def set_enabled (entry : Addr) (v : Int) (s : State) : State :=
  { s with mem := Function.update s.mem entry { s.mem entry with enabled := int_to_char v } }

/-- Store into `entry->next`. -/
def set_next (entry : Addr) (p : Option Addr) (s : State) : State :=
  { s with mem := Function.update s.mem entry { s.mem entry with next := p } }

/-- The macro `ULOG_FOREACH(action)`: `for (entry = uLog_.registry; entry; entry = entry->next)`.
The locals of the enclosing function that the action updates are threaded as `L`. -/
def ULOG_FOREACH_from {L : Type} (action : Addr → State → L → Option (State × L)) :
    Nat → Option Addr → State → L → Option (State × L)
  | _, none, s, l => some (s, l)
  | 0, some _, _, _ => none
  | fuel + 1, some entry, s, l =>
    match action entry s l with
    | none => none
    | some (s1, l1) => ULOG_FOREACH_from action fuel (s1.mem entry).next s1 l1

/-- The macro `ULOG_FOREACH(action)`, from `uLog_.registry`. -/
def ULOG_FOREACH {L : Type} (action : Addr → State → L → Option (State × L))
    (fuel : Nat) (s : State) (l : L) : Option (State × L) :=
  ULOG_FOREACH_from action fuel s.registry s l

/-- The action `entry->enabled = uLog_level_of(entry->message) <= uLog_.level`. -/
def set_level_action (entry : Addr) (s : State) (l : Unit) : Option (State × Unit) :=
  match uLog_level_of (s.mem entry).message with
  | none => none
  | some rank => some (set_enabled entry (level_le rank s.level) s, l)

/-- The function `uLog_set_level`. -/
def uLog_set_level (fuel : Nat) (level : Int) (s : State) : Option State :=
  match ULOG_FOREACH set_level_action fuel { s with level := level } () with
  | none => none
  | some (s1, _) => some s1

/-- The function `uLog_register`. -/
def uLog_register (entry : Addr) (s : State) : Option State :=
  match uLog_level_of (s.mem entry).message with
  | none => none
  | some rank =>
    let s1 := set_enabled entry (level_le rank s.level) s
    let s2 := set_next entry s1.registry s1
    some { s2 with registry := some entry }

/-- The libc regex interface used by `uLog_enable_by_regex`: `regcomp` with
`REG_EXTENDED|REG_NOSUB` (`none` is a non-zero error code) and `regexec`. -/
structure RegexLib where
  regex_t : Type
  regcomp : CString → Option regex_t
  regexec : regex_t → CString → Int

/-- The constant `REG_NOMATCH` of `regex.h`. -/
def REG_NOMATCH : Int := 1

/-- The action of the loop of `uLog_enable_by_regex`. -/
def enable_by_regex_action (R : RegexLib) (preg : R.regex_t) (enabled : Int)
    (entry : Addr) (s : State) (n : Int) : Option (State × Int) :=
  if R.regexec preg (s.mem entry).message ≠ REG_NOMATCH then
    some (set_enabled entry enabled s, n + 1)
  else some (s, n)

/-- The function `uLog_enable_by_regex`; `_entry` is the address of the static entry
of its own `ULOG("e: bad regex expression")` call site. -/
def uLog_enable_by_regex (R : RegexLib) (_entry : Addr) (fuel : Nat)
    (regex : CString) (enabled : Int) (s : State) : Option (State × Int) :=
  match R.regcomp regex with
  | none => some (ULOG _entry (cstr "e: bad regex expression") [] s, -1)
  | some preg => ULOG_FOREACH (enable_by_regex_action R preg enabled) fuel s 0

/-! ## Registry shape -/

/-- The chain of `next` pointers from `head` runs through exactly the addresses of
`l` and then reaches `NULL`. -/
def isList (mem : Addr → uLog_entry) : Option Addr → List Addr → Prop
  | head, [] => head = none
  | head, a :: t => head = some a ∧ isList mem (mem a).next t

instance isList_decidable (mem : Addr → uLog_entry) :
    (head : Option Addr) → (l : List Addr) → Decidable (isList mem head l)
  | head, [] => inferInstanceAs (Decidable (head = none))
  | head, a :: t =>
    have := isList_decidable mem (mem a).next t
    inferInstanceAs (Decidable (head = some a ∧ isList mem (mem a).next t))

/-- The fifteen marker characters `0aAcCeEwWnNiIdD` of the message template format. -/
def MARKERS : List Int := [48, 97, 65, 99, 67, 101, 69, 119, 87, 110, 78, 105, 73, 100, 68]

/-- The first byte of a message as stored, the terminating NUL for the empty string. -/
def byte0 (message : CString) : Nat :=
  match message with
  | [] => 0
  | b :: _ => b % 256

/-- The rank that the loop computes, as a total function (see `uLog_level_of_eq_rank`). -/
def rank (message : CString) : Int := (uLog_level_of message).getD (-1)

/-! ## The two traversals in closed form: definitions -/

/-- Memory after the loop of `uLog_set_level` has run over the entries of `l`. -/
def set_level_mem (level : Int) (l : List Addr) (mem : Addr → uLog_entry) : Addr → uLog_entry :=
  fun b => if b ∈ l then { mem b with enabled := level_le (rank (mem b).message) level } else mem b

/-- Memory after the loop of `uLog_enable_by_regex` has run over the entries of `l`. -/
def regex_mem (R : RegexLib) (preg : R.regex_t) (v : Int) (l : List Addr)
    (mem : Addr → uLog_entry) : Addr → uLog_entry :=
  fun b => if b ∈ l ∧ R.regexec preg (mem b).message ≠ REG_NOMATCH
    then { mem b with enabled := int_to_char v } else mem b

/-- Number of entries of `l` for which `regexec` does not answer `REG_NOMATCH`. -/
def regex_count (R : RegexLib) (preg : R.regex_t) (l : List Addr)
    (mem : Addr → uLog_entry) : Nat :=
  l.countP (fun b => decide (R.regexec preg (mem b).message ≠ REG_NOMATCH))

/-! ## Report, startup and the operations as a step function -/

/-- The action of the loop of `uLog_report`: `++n_entries; n_enabled += entry->enabled`. -/
def report_action (entry : Addr) (s : State) (n : Int × Int) : Option (State × (Int × Int)) :=
  some (s, (n.1 + 1, n.2 + (s.mem entry).enabled))

/-- The locals `(n_entries, n_enabled)` of `uLog_report` after its loop. -/
def uLog_report_counts (fuel : Nat) (s : State) : Option (Int × Int) :=
  match ULOG_FOREACH report_action fuel s (0, 0) with
  | none => none
  | some (_, n) => some n

/-- The shutdown function `uLog_report`; `_entry` is the static entry of its own
`ULOG_INTERNAL` call site, `quiet` says whether `ULOG_QUIET` is defined. -/
def uLog_report (_entry : Addr) (quiet : Bool) (fuel : Nat) (s : State) : Option State :=
  match ULOG_FOREACH report_action fuel s (0, 0) with
  | none => none
  | some (s1, n) =>
    if quiet then some s1
    else some (ULOG _entry
      (cstr "i: uLog v%g: uLog_.level = %d, n_entries = %d, n_enabled = %d")
      [Arg.double 1 (-2), Arg.int s1.level, Arg.int n.1, Arg.int n.2] s1)

/-- The constructors `uLog_entry_init` of the call sites `sites`, run in that order. -/
def register_all : List Addr → State → Option State
  | [], s => some s
  | e :: es, s =>
    match uLog_register e s with
    | none => none
    | some s1 => register_all es s1

/-- An action that also records, in order, the entries the traversal visits. -/
def traced {L : Type} (action : Addr → State → L → Option (State × L))
    (entry : Addr) (s : State) (l : L × List Addr) : Option (State × (L × List Addr)) :=
  match action entry s l.1 with
  | none => none
  | some (s1, l1) => some (s1, (l1, l.2 ++ [entry]))

/-- The operations of the facility. -/
inductive Op where
  | register (entry : Addr)
  | set_level (level : Int)
  | enable_by_regex (regex : CString) (enabled : Int)
  | set_file (file : Option FILE)
  | log (_entry : Addr) (_message : CString) (_args : Args)

/-- One operation applied to a state. -/
def step (R : RegexLib) (_entry : Addr) (fuel : Nat) : Op → State → Option State
  | Op.register entry, s => uLog_register entry s
  | Op.set_level level, s => uLog_set_level fuel level s
  | Op.enable_by_regex regex enabled, s =>
    match uLog_enable_by_regex R _entry fuel regex enabled s with
    | none => none
    | some (s1, _) => some s1
  | Op.set_file file, s => some (uLog_set_file file s)
  | Op.log e m a, s => some (ULOG e m a s)

/-! ## The scenario population -/

/-- Static memory of the scenario: call sites at addresses 1, 2 and 3, and the call
site of `uLog_enable_by_regex` at address 0. -/
def scenario_mem : Addr → uLog_entry := fun a =>
  if a = 1 then static_entry (cstr "E: failed %d")
  else if a = 2 then static_entry (cstr "I: started")
  else if a = 3 then static_entry (cstr "D: trace %s")
  else static_entry (cstr "e: bad regex expression")

/-- The scenario after startup: the three entries registered in the order 1, 2, 3
and `stderr` set as the file. -/
def scenario : State :=
  match register_all [1, 2, 3] (uLog_init (uLog_ scenario_mem)) with
  | some s => s
  | none => uLog_ scenario_mem

/-- The scenario with the level set to Error (3). -/
def scenario_error : State :=
  match uLog_set_level 3 3 scenario with
  | some s => s
  | none => scenario

/-- The characters with a special meaning in an extended regular expression:
`. [ ] ( ) * + ? \x7b \x7d | ^ $` and the backslash. -/
def ERE_SPECIAL : List Nat := [46, 91, 93, 40, 41, 42, 43, 63, 123, 125, 124, 94, 36, 92]

/-- A stand-in for libc on patterns without special characters: such a pattern
compiles to itself and matches the strings that contain it; every other pattern is
rejected. Used for concrete inputs only. -/
def literal_regex : RegexLib where
  regex_t := CString
  regcomp := fun p => if p.any (fun c => ERE_SPECIAL.contains c) then none else some p
  regexec := fun preg m => if (m.tails.any (fun t => preg.isPrefixOf t)) then 0 else REG_NOMATCH

/-! ## Sequences of operations, the instrumented level codec, further populations -/

/-- A sequence of operations applied in order. -/
def run (R : RegexLib) (_entry : Addr) (fuel : Nat) : List Op → State → Option State
  | [], s => some s
  | op :: ops, s =>
    match step R _entry fuel op s with
    | none => none
    | some s1 => run R _entry fuel ops s1

/-- A sequence of operations of the level machinery on a registry holding `l`:
every registration is of an entry not yet registered and every call of
`uLog_enable_by_regex` is one whose pattern does not compile. -/
def level_ops_ok (R : RegexLib) : List Addr → List Op → Prop
  | _, [] => True
  | l, Op.register e :: ops => e ∉ l ∧ level_ops_ok R (e :: l) ops
  | l, Op.set_level _ :: ops => level_ops_ok R l ops
  | l, Op.enable_by_regex p _ :: ops => R.regcomp p = none ∧ level_ops_ok R l ops
  | l, Op.set_file _ :: ops => level_ops_ok R l ops
  | l, Op.log _ _ _ :: ops => level_ops_ok R l ops

/-- What a run of `uLog_level_of` did: its result, the indices at which it read
`ULOG_LEVELS`, the indices at which it read `message`, and the number of times it
compared a level character with the marker. -/
structure LevelTrace where
  result : Int
  levels_read : List Nat
  message_read : List Nat
  comparisons : Nat
deriving DecidableEq

/-- The loop of `uLog_level_of` over a memory in which `read i` is the byte
`message[i]`, or `none` where that byte cannot be read; every access is recorded.
An unreadable byte, an index outside `ULOG_LEVELS` or running out of fuel gives
`none`. -/
def uLog_level_of_traced_loop (read : Nat → Option Nat) :
    Nat → Nat → LevelTrace → Option LevelTrace
  | 0, _, _ => none
  | fuel + 1, level, t =>
    match ULOG_LEVELS[level]?, read 0 with
    | some c, some b =>
      if c ≠ Int.lor (char_of_byte b) (97 - 65) then
        match ULOG_LEVELS[level + 1]? with
        | none => none
        | some c1 =>
          let t1 : LevelTrace :=
            { t with levels_read := t.levels_read ++ [level, level + 1],
                     message_read := t.message_read ++ [0],
                     comparisons := t.comparisons + 1 }
          if c1 = 0 then some { t1 with result := -1 }
          else uLog_level_of_traced_loop read fuel (level + 1) t1
      else some { result := (level : Int), levels_read := t.levels_read ++ [level],
                  message_read := t.message_read ++ [0], comparisons := t.comparisons + 1 }
    | _, _ => none

/-- The function `uLog_level_of` with its accesses recorded. -/
def uLog_level_of_traced (read : Nat → Option Nat) : Option LevelTrace :=
  uLog_level_of_traced_loop read 9 0
    { result := 0, levels_read := [], message_read := [], comparisons := 0 }

/-- The bounds on a run of `uLog_level_of`: at most 8 comparisons, `ULOG_LEVELS` read
at indices 0..8 only, `message` read at index 0 only, result in -1..7. -/
def LevelTrace.in_bounds (t : LevelTrace) : Prop :=
  t.comparisons ≤ 8 ∧ (∀ i ∈ t.levels_read, i ≤ 8) ∧ (∀ j ∈ t.message_read, j = 0) ∧
    -1 ≤ t.result ∧ t.result ≤ 7

instance LevelTrace.in_bounds_decidable (t : LevelTrace) : Decidable t.in_bounds :=
  inferInstanceAs (Decidable (_ ∧ _))

/-- The number of entries of `l` whose flag tests as enabled. -/
def count_enabled (mem : Addr → uLog_entry) (l : List Addr) : Nat :=
  (l.filter (fun a => decide ((mem a).enabled ≠ 0))).length

/-- Static memory in which every call site has the template "x: no marker", whose
first character is not a marker. -/
def invalid_mem : Addr → uLog_entry := fun _ => static_entry (cstr "x: no marker")

/-- The call site at address 1 of `invalid_mem`, registered on the initial `uLog_`. -/
def invalid_scenario : State :=
  match uLog_register 1 (uLog_ invalid_mem) with
  | some s => s
  | none => uLog_ invalid_mem

/-- The scenario after `uLog_enable_by_regex("trace", 2)`. -/
def scenario_trace2 : State :=
  match uLog_enable_by_regex literal_regex 0 3 (cstr "trace") 2 scenario with
  | some (s, _) => s
  | none => scenario

/-! ## Level codec: lemmas -/

theorem message0_byte0 (m : CString) : message0 [byte0 m] = message0 m := by
  cases m with
  | nil => rfl
  | cons b t => simp [message0, byte0, char_of_byte]

theorem byte0_lt (m : CString) : byte0 m < 256 := by
  cases m with
  | nil => simp [byte0]
  | cons b t => simp only [byte0]; omega

theorem uLog_level_of_loop_congr (m1 m2 : CString) (h : message0 m1 = message0 m2) :
    ∀ fuel level, uLog_level_of_loop m1 fuel level = uLog_level_of_loop m2 fuel level := by
  intro fuel
  induction fuel with
  | zero => intro level; rfl
  | succ n ih => intro level; simp only [uLog_level_of_loop, h, ih]

theorem uLog_level_of_congr (m1 m2 : CString) (h : message0 m1 = message0 m2) :
    uLog_level_of m1 = uLog_level_of m2 :=
  uLog_level_of_loop_congr m1 m2 h 9 0

theorem uLog_level_of_byte0 (m : CString) : uLog_level_of m = uLog_level_of [byte0 m] :=
  uLog_level_of_congr _ _ (message0_byte0 m).symm

/-- The result of the loop for each possible first byte. -/
theorem uLog_level_of_byte (n : Nat) (hn : n < 256) :
    uLog_level_of [n] = some
      (if n = 48 ∨ n = 16 then 0 else if n = 97 ∨ n = 65 then 1
       else if n = 99 ∨ n = 67 then 2 else if n = 101 ∨ n = 69 then 3
       else if n = 119 ∨ n = 87 then 4 else if n = 110 ∨ n = 78 then 5
       else if n = 105 ∨ n = 73 then 6 else if n = 100 ∨ n = 68 then 7 else -1) := by
  interval_cases n <;> rfl

theorem uLog_level_of_eq_rank (m : CString) : uLog_level_of m = some (rank m) := by
  have h := uLog_level_of_byte (byte0 m) (byte0_lt m)
  rw [← uLog_level_of_byte0] at h
  simp [rank, h]

theorem rank_bounds (m : CString) : -1 ≤ rank m ∧ rank m ≤ 7 := by
  have h := uLog_level_of_byte (byte0 m) (byte0_lt m)
  rw [← uLog_level_of_byte0] at h
  simp only [rank, h, Option.getD_some]
  split_ifs <;> omega

/-! ## Registry shape: lemmas -/

theorem isList_frame (mem mem2 : Addr → uLog_entry) :
    ∀ (l : List Addr) (head : Option Addr), (∀ a ∈ l, (mem2 a).next = (mem a).next) →
      isList mem head l → isList mem2 head l := by
  intro l
  induction l with
  | nil => intro head _ h; exact h
  | cons a t ih =>
    intro head hn h
    refine ⟨h.1, ?_⟩
    rw [hn a (List.mem_cons_self a t)]
    exact ih _ (fun b hb => hn b (List.mem_cons_of_mem a hb)) h.2

theorem isList_unique (mem : Addr → uLog_entry) :
    ∀ (l1 l2 : List Addr) (head : Option Addr),
      isList mem head l1 → isList mem head l2 → l1 = l2 := by
  intro l1
  induction l1 with
  | nil =>
    intro l2 head h1 h2
    cases l2 with
    | nil => rfl
    | cons b t2 => simp only [isList] at h1 h2; rw [h1] at h2; exact absurd h2.1 (by simp)
  | cons a t ih =>
    intro l2 head h1 h2
    cases l2 with
    | nil => simp only [isList] at h1 h2; rw [h2] at h1; exact absurd h1.1 (by simp)
    | cons b t2 =>
      simp only [isList] at h1 h2
      have hab : a = b := by
        have := h1.1.symm.trans h2.1
        exact Option.some.inj this
      subst hab
      rw [ih t2 _ h1.2 h2.2]

theorem isList_append (mem : Addr → uLog_entry) :
    ∀ (l1 l2 : List Addr) (head : Option Addr),
      isList mem head (l1 ++ l2) → ∃ h2, isList mem h2 l2 ∧ (l1 = [] → h2 = head) := by
  intro l1
  induction l1 with
  | nil => intro l2 head h; exact ⟨head, h, fun _ => rfl⟩
  | cons a t ih =>
    intro l2 head h
    obtain ⟨h2, hl, _⟩ := ih l2 _ h.2
    exact ⟨h2, hl, fun hc => absurd hc (by simp)⟩

theorem isList_head_not_mem_tail (mem : Addr → uLog_entry) (a : Addr) (t : List Addr)
    (head : Option Addr) (h : isList mem head (a :: t)) : a ∉ t := by
  intro hmem
  obtain ⟨t1, t2, ht⟩ := List.append_of_mem hmem
  have h2 := h.2
  rw [ht] at h2
  obtain ⟨h3, hl3, _⟩ := isList_append mem t1 (a :: t2) _ h2
  have heq : t2 = t := isList_unique mem t2 t _ hl3.2 h.2
  have hlen := congrArg List.length ht
  rw [← heq] at hlen
  simp at hlen
  omega

theorem isList_nodup (mem : Addr → uLog_entry) :
    ∀ (l : List Addr) (head : Option Addr), isList mem head l → l.Nodup := by
  intro l
  induction l with
  | nil => intro _ _; exact List.nodup_nil
  | cons a t ih =>
    intro head h
    exact List.nodup_cons.mpr ⟨isList_head_not_mem_tail mem a t head h, ih _ h.2⟩

/-! ## Stores: lemmas -/

theorem int_to_char_level_le (r l : Int) : int_to_char (level_le r l) = level_le r l := by
  unfold level_le int_to_char
  split <;> rfl

theorem int_to_char_of_range (v : Int) (h1 : -128 ≤ v) (h2 : v ≤ 127) : int_to_char v = v := by
  unfold int_to_char
  omega

@[simp]
theorem set_enabled_next (e : Addr) (v : Int) (s : State) (b : Addr) :
    ((set_enabled e v s).mem b).next = (s.mem b).next := by
  unfold set_enabled
  by_cases h : b = e
  · subst h; simp
  · simp [Function.update_noteq h]

@[simp]
theorem set_enabled_message (e : Addr) (v : Int) (s : State) (b : Addr) :
    ((set_enabled e v s).mem b).message = (s.mem b).message := by
  unfold set_enabled
  by_cases h : b = e
  · subst h; simp
  · simp [Function.update_noteq h]

/-! ## The two traversals: lemmas -/

theorem set_level_action_eq (e : Addr) (s : State) :
    set_level_action e s () =
      some (set_enabled e (level_le (rank (s.mem e).message) s.level) s, ()) := by
  simp [set_level_action, uLog_level_of_eq_rank]

theorem foreach_set_level :
    ∀ (l : List Addr) (fuel : Nat) (head : Option Addr) (s : State),
      isList s.mem head l → l.length ≤ fuel →
      ULOG_FOREACH_from set_level_action fuel head s () =
        some ({ s with mem := set_level_mem s.level l s.mem }, ()) := by
  intro l
  induction l with
  | nil =>
    intro fuel head s h _
    simp only [isList] at h
    subst h
    have hm : set_level_mem s.level [] s.mem = s.mem := by
      funext b; simp [set_level_mem]
    rw [hm]
    cases fuel <;> rfl
  | cons a t ih =>
    intro fuel head s h hf
    obtain ⟨hh, ht⟩ := h
    subst hh
    cases fuel with
    | zero => simp at hf
    | succ f =>
      simp only [ULOG_FOREACH_from, set_level_action_eq, set_enabled_next]
      have ht2 : isList (set_enabled a (level_le (rank (s.mem a).message) s.level) s).mem
          (s.mem a).next t :=
        isList_frame s.mem _ t _ (fun b _ => set_enabled_next _ _ _ _) ht
      rw [ih f _ _ ht2 (by simpa using hf)]
      refine congrArg (fun x => some (x, ())) ?_
      refine State.mk.injEq .. ▸ ⟨?_, rfl, rfl, rfl, rfl⟩
      funext b
      show set_level_mem s.level t _ b = _
      simp only [set_level_mem, set_enabled_message, List.mem_cons]
      by_cases hb : b = a
      · subst hb
        by_cases hbt : b ∈ t
        · simp [hbt, set_enabled]
        · simp [hbt, set_enabled, int_to_char_level_le]
      · have hne : (set_enabled a (level_le (rank (s.mem a).message) s.level) s).mem b = s.mem b := by
          simp [set_enabled, Function.update_noteq hb]
        simp [hb, hne, set_enabled]

theorem foreach_regex (R : RegexLib) (preg : R.regex_t) (v : Int) :
    ∀ (l : List Addr) (fuel : Nat) (head : Option Addr) (s : State) (n : Int),
      isList s.mem head l → l.length ≤ fuel →
      ULOG_FOREACH_from (enable_by_regex_action R preg v) fuel head s n =
        some ({ s with mem := regex_mem R preg v l s.mem },
              n + (regex_count R preg l s.mem : Int)) := by
  intro l
  induction l with
  | nil =>
    intro fuel head s n h _
    simp only [isList] at h
    subst h
    have hm : regex_mem R preg v [] s.mem = s.mem := by
      funext b; simp [regex_mem]
    rw [hm]
    cases fuel <;> simp [ULOG_FOREACH_from, regex_count]
  | cons a t ih =>
    intro fuel head s n h hf
    obtain ⟨hh, ht⟩ := h
    subst hh
    cases fuel with
    | zero => simp at hf
    | succ f =>
      by_cases hm : R.regexec preg (s.mem a).message = REG_NOMATCH
      · simp only [ULOG_FOREACH_from, enable_by_regex_action, hm, ne_eq, not_true_eq_false,
          if_false]
        rw [ih f _ _ n ht (by simpa using hf)]
        have e1 : regex_mem R preg v t s.mem = regex_mem R preg v (a :: t) s.mem := by
          funext b
          simp only [regex_mem, List.mem_cons]
          by_cases hb : b = a
          · subst hb; simp [hm]
          · simp [hb]
        have e2 : regex_count R preg t s.mem = regex_count R preg (a :: t) s.mem := by
          simp [regex_count, List.countP_cons, hm]
        rw [e1, e2]
      · simp only [ULOG_FOREACH_from, enable_by_regex_action, hm, ne_eq, not_false_eq_true,
          if_true, set_enabled_next]
        have ht2 : isList (set_enabled a v s).mem (s.mem a).next t :=
          isList_frame s.mem _ t _ (fun b _ => set_enabled_next _ _ _ _) ht
        rw [ih f _ _ (n + 1) ht2 (by simpa using hf)]
        have e1 : regex_mem R preg v t (set_enabled a v s).mem =
            regex_mem R preg v (a :: t) s.mem := by
          funext b
          simp only [regex_mem, set_enabled_message, List.mem_cons]
          by_cases hb : b = a
          · subst hb
            by_cases hbt : b ∈ t
            · simp [hbt, hm, set_enabled]
            · simp [hbt, hm, set_enabled]
          · have hne : (set_enabled a v s).mem b = s.mem b := by
              simp [set_enabled, Function.update_noteq hb]
            simp [hb, hne]
        have e2 : (n + 1 + (regex_count R preg t (set_enabled a v s).mem : Int)) =
            n + (regex_count R preg (a :: t) s.mem : Int) := by
          simp only [regex_count, set_enabled_message, List.countP_cons, hm, ne_eq,
            not_false_eq_true, decide_True, if_true]
          push_cast
          ring
        rw [e2]
        refine congrArg (fun x => some (x, _)) ?_
        refine State.mk.injEq .. ▸ ⟨e1, rfl, rfl, rfl, rfl⟩

/-! ## The engines in closed form -/

theorem uLog_set_level_eq (s : State) (l : List Addr) (r : Int) (fuel : Nat)
    (hl : isList s.mem s.registry l) (hf : l.length ≤ fuel) :
    uLog_set_level fuel r s = some { s with level := r, mem := set_level_mem r l s.mem } := by
  unfold uLog_set_level ULOG_FOREACH
  rw [foreach_set_level l fuel _ { s with level := r } hl hf]

theorem uLog_enable_by_regex_eq (R : RegexLib) (site : Addr) (s : State) (l : List Addr)
    (fuel : Nat) (p : CString) (v : Int) (preg : R.regex_t) (hp : R.regcomp p = some preg)
    (hl : isList s.mem s.registry l) (hf : l.length ≤ fuel) :
    uLog_enable_by_regex R site fuel p v s =
      some ({ s with mem := regex_mem R preg v l s.mem }, (regex_count R preg l s.mem : Int)) := by
  unfold uLog_enable_by_regex ULOG_FOREACH
  simp only [hp]
  rw [foreach_regex R preg v l fuel _ s 0 hl hf]
  simp

theorem regex_count_le (R : RegexLib) (preg : R.regex_t) (l : List Addr)
    (mem : Addr → uLog_entry) : regex_count R preg l mem ≤ l.length :=
  List.countP_le_length _

theorem ULOG_frame (e : Addr) (m : CString) (a : Args) (s : State) :
    (ULOG e m a s).mem = s.mem ∧ (ULOG e m a s).registry = s.registry ∧
      (ULOG e m a s).level = s.level ∧ (ULOG e m a s).file = s.file := by
  unfold ULOG
  split
  · split <;> exact ⟨rfl, rfl, rfl, rfl⟩
  · exact ⟨rfl, rfl, rfl, rfl⟩

theorem set_level_mem_frame (r : Int) (l : List Addr) (mem : Addr → uLog_entry) (a : Addr) :
    (set_level_mem r l mem a).message = (mem a).message ∧
      (set_level_mem r l mem a).next = (mem a).next := by
  unfold set_level_mem
  split <;> exact ⟨rfl, rfl⟩

theorem regex_mem_frame (R : RegexLib) (preg : R.regex_t) (v : Int) (l : List Addr)
    (mem : Addr → uLog_entry) (a : Addr) :
    (regex_mem R preg v l mem a).message = (mem a).message ∧
      (regex_mem R preg v l mem a).next = (mem a).next := by
  unfold regex_mem
  split <;> exact ⟨rfl, rfl⟩

/-! ## Registration and traversal: lemmas -/

/-- The invalid-marker value is returned exactly for the first characters other than
the fifteen markers and the control character 0x10. -/
theorem uLog_level_of_invalid_iff (m : CString) :
    uLog_level_of m = some (-1) ↔ message0 m ∉ MARKERS ∧ message0 m ≠ 16 := by
  rw [uLog_level_of_byte0 m, ← message0_byte0 m]
  have hn := byte0_lt m
  generalize byte0 m = n at hn
  interval_cases n <;> decide

theorem uLog_register_eq (e : Addr) (s : State) :
    uLog_register e s = some
      { s with
        mem := Function.update s.mem e
          { enabled := level_le (rank (s.mem e).message) s.level,
            message := (s.mem e).message, next := s.registry },
        registry := some e } := by
  simp [uLog_register, uLog_level_of_eq_rank, set_enabled, set_next, int_to_char_level_le]

theorem uLog_register_isList (e : Addr) (s : State) (l : List Addr)
    (hl : isList s.mem s.registry l) (he : e ∉ l) :
    isList (Function.update s.mem e
      { enabled := level_le (rank (s.mem e).message) s.level,
        message := (s.mem e).message, next := s.registry }) (some e) (e :: l) := by
  refine ⟨rfl, ?_⟩
  rw [Function.update_same]
  refine isList_frame s.mem _ l _ (fun a ha => ?_) hl
  have hne : a ≠ e := fun h => he (h ▸ ha)
  rw [Function.update_noteq hne]

theorem register_all_spec :
    ∀ (es : List Addr) (s : State) (l : List Addr), isList s.mem s.registry l →
      es.Nodup → (∀ e ∈ es, e ∉ l) →
      ∃ s1, register_all es s = some s1 ∧ isList s1.mem s1.registry (es.reverse ++ l) ∧
        s1.level = s.level ∧ s1.file = s.file := by
  intro es
  induction es with
  | nil => intro s l hl _ _; exact ⟨s, rfl, by simpa using hl, rfl, rfl⟩
  | cons e es ih =>
    intro s l hl hn hd
    have hel : e ∉ l := hd e (List.mem_cons_self e es)
    have hl1 := uLog_register_isList e s l hl hel
    obtain ⟨hne, hn2⟩ := List.nodup_cons.mp hn
    obtain ⟨s1, h1, hl2, hlev, hfile⟩ := ih
      { s with
        mem := Function.update s.mem e
          { enabled := level_le (rank (s.mem e).message) s.level,
            message := (s.mem e).message, next := s.registry },
        registry := some e } (e :: l) hl1 hn2
      (fun x hx hmem => by
        rcases List.mem_cons.mp hmem with h | h
        · exact hne (h ▸ hx)
        · exact hd x (List.mem_cons_of_mem e hx) h)
    refine ⟨s1, ?_, ?_, hlev, hfile⟩
    · simp only [register_all, uLog_register_eq]
      exact h1
    · simpa using hl2

theorem foreach_traced {L : Type} (action : Addr → State → L → Option (State × L))
    (hact : ∀ e s x, ∃ s1 x1, action e s x = some (s1, x1) ∧
      ∀ b, (s1.mem b).next = (s.mem b).next) :
    ∀ (l : List Addr) (fuel : Nat) (head : Option Addr) (s : State) (x : L) (acc : List Addr),
      isList s.mem head l → l.length ≤ fuel →
      ∃ s1 x1, ULOG_FOREACH_from (traced action) fuel head s (x, acc) = some (s1, (x1, acc ++ l)) ∧
        ULOG_FOREACH_from action fuel head s x = some (s1, x1) := by
  intro l
  induction l with
  | nil =>
    intro fuel head s x acc h _
    simp only [isList] at h
    subst h
    refine ⟨s, x, ?_, ?_⟩ <;> cases fuel <;> simp [ULOG_FOREACH_from]
  | cons a t ih =>
    intro fuel head s x acc h hf
    obtain ⟨hh, ht⟩ := h
    subst hh
    cases fuel with
    | zero => simp at hf
    | succ f =>
      obtain ⟨s1, x1, ha, hnext⟩ := hact a s x
      have ht2 : isList s1.mem (s1.mem a).next t := by
        rw [hnext a]
        exact isList_frame s.mem _ t _ (fun b _ => hnext b) ht
      obtain ⟨s2, x2, h2, h3⟩ := ih f _ s1 x1 (acc ++ [a]) ht2 (by simpa using hf)
      refine ⟨s2, x2, ?_, ?_⟩
      · simp only [ULOG_FOREACH_from, traced, ha]
        rw [h2]
        simp
      · simp only [ULOG_FOREACH_from, ha]
        exact h3

theorem set_level_action_ok (e : Addr) (s : State) (x : Unit) :
    ∃ s1 x1, set_level_action e s x = some (s1, x1) ∧
      ∀ b, (s1.mem b).next = (s.mem b).next :=
  ⟨_, _, set_level_action_eq e s, fun b => set_enabled_next _ _ _ b⟩

theorem enable_by_regex_action_ok (R : RegexLib) (preg : R.regex_t) (v : Int)
    (e : Addr) (s : State) (n : Int) :
    ∃ s1 n1, enable_by_regex_action R preg v e s n = some (s1, n1) ∧
      ∀ b, (s1.mem b).next = (s.mem b).next := by
  unfold enable_by_regex_action
  split
  · exact ⟨_, _, rfl, fun b => set_enabled_next _ _ _ b⟩
  · exact ⟨_, _, rfl, fun _ => rfl⟩

theorem report_action_ok (e : Addr) (s : State) (n : Int × Int) :
    ∃ s1 n1, report_action e s n = some (s1, n1) ∧
      ∀ b, (s1.mem b).next = (s.mem b).next :=
  ⟨_, _, rfl, fun _ => rfl⟩

/-! ## Report and invariant of the level machinery: lemmas -/

theorem foreach_report :
    ∀ (l : List Addr) (fuel : Nat) (head : Option Addr) (s : State) (n : Int × Int),
      isList s.mem head l → l.length ≤ fuel →
      ULOG_FOREACH_from report_action fuel head s n =
        some (s, (n.1 + (l.length : Int), n.2 + (l.map (fun a => (s.mem a).enabled)).sum)) := by
  intro l
  induction l with
  | nil =>
    intro fuel head s n h _
    simp only [isList] at h
    subst h
    cases fuel <;> simp [ULOG_FOREACH_from]
  | cons a t ih =>
    intro fuel head s n h hf
    obtain ⟨hh, ht⟩ := h
    subst hh
    cases fuel with
    | zero => simp at hf
    | succ f =>
      simp only [ULOG_FOREACH_from, report_action]
      rw [ih f _ s _ ht (by simpa using hf)]
      simp only [List.length_cons, List.map_cons, List.sum_cons]
      push_cast
      simp only [add_assoc, add_comm (1 : Int)]

theorem uLog_report_counts_eq (s : State) (l : List Addr) (fuel : Nat)
    (hl : isList s.mem s.registry l) (hf : l.length ≤ fuel) :
    uLog_report_counts fuel s =
      some ((l.length : Int), (l.map (fun a => (s.mem a).enabled)).sum) := by
  unfold uLog_report_counts ULOG_FOREACH
  rw [foreach_report l fuel _ s (0, 0) hl hf]
  simp

theorem sum_flags_eq_count_enabled (mem : Addr → uLog_entry) :
    ∀ (l : List Addr), (∀ a ∈ l, (mem a).enabled = 0 ∨ (mem a).enabled = 1) →
      (l.map (fun a => (mem a).enabled)).sum = (count_enabled mem l : Int) := by
  intro l
  induction l with
  | nil => intro _; rfl
  | cons a t ih =>
    intro h
    have iht := ih (fun b hb => h b (List.mem_cons_of_mem a hb))
    unfold count_enabled at iht ⊢
    rcases h a (List.mem_cons_self a t) with h0 | h1
    · simp [List.filter_cons, h0, iht]
    · simp [List.filter_cons, h1, iht]
      ring

theorem level_le_bool (k r : Int) : level_le k r = 0 ∨ level_le k r = 1 := by
  unfold level_le
  split
  · exact Or.inr rfl
  · exact Or.inl rfl

theorem run_level_inv (R : RegexLib) (site : Addr) (fuel : Nat) :
    ∀ (ops : List Op) (s : State) (l : List Addr), isList s.mem s.registry l →
      (∀ a ∈ l, (s.mem a).enabled = level_le (rank (s.mem a).message) s.level) →
      level_ops_ok R l ops → l.length + ops.length ≤ fuel →
      ∃ s1 l1, run R site fuel ops s = some s1 ∧ isList s1.mem s1.registry l1 ∧
        ∀ a ∈ l1, (s1.mem a).enabled = level_le (rank (s1.mem a).message) s1.level := by
  intro ops
  induction ops with
  | nil => intro s l hl hinv _ _; exact ⟨s, l, rfl, hl, hinv⟩
  | cons op ops ih =>
    intro s l hl hinv hok hf
    have hf1 : l.length ≤ fuel := by simp at hf; omega
    cases op with
    | register e =>
      obtain ⟨he, hok2⟩ := hok
      have hl1 := uLog_register_isList e s l hl he
      obtain ⟨s1, l1, h1, h2, h3⟩ := ih
        { s with
          mem := Function.update s.mem e
            { enabled := level_le (rank (s.mem e).message) s.level,
              message := (s.mem e).message, next := s.registry },
          registry := some e } (e :: l) hl1
        (fun a ha => by
          by_cases hae : a = e
          · subst hae; simp
          · have hal : a ∈ l := by
              rcases List.mem_cons.mp ha with h | h
              · exact absurd h hae
              · exact h
            simp only [Function.update_noteq hae]
            exact hinv a hal) hok2 (by simp at hf ⊢; omega)
      refine ⟨s1, l1, ?_, h2, h3⟩
      simp only [run, step, uLog_register_eq]
      exact h1
    | set_level r =>
      obtain ⟨s1, l1, h1, h2, h3⟩ := ih
        { s with level := r, mem := set_level_mem r l s.mem } l
        (isList_frame s.mem _ l _ (fun a _ => (set_level_mem_frame r l s.mem a).2) hl)
        (fun a ha => by simp [set_level_mem, ha]) hok (by simp at hf ⊢; omega)
      refine ⟨s1, l1, ?_, h2, h3⟩
      simp only [run, step, uLog_set_level_eq s l r fuel hl hf1]
      exact h1
    | enable_by_regex p v =>
      obtain ⟨hp, hok2⟩ := hok
      obtain ⟨g1, g2, g3, -⟩ := ULOG_frame site (cstr "e: bad regex expression") [] s
      obtain ⟨s1, l1, h1, h2, h3⟩ := ih (ULOG site (cstr "e: bad regex expression") [] s) l
        (by rw [g1, g2]; exact hl) (by rw [g1, g3]; exact hinv) hok2 (by simp at hf ⊢; omega)
      refine ⟨s1, l1, ?_, h2, h3⟩
      simp only [run, step, uLog_enable_by_regex, hp]
      exact h1
    | set_file f =>
      obtain ⟨s1, l1, h1, h2, h3⟩ := ih (uLog_set_file f s) l hl hinv hok
        (by simp at hf ⊢; omega)
      exact ⟨s1, l1, by simp only [run, step]; exact h1, h2, h3⟩
    | log e m args =>
      obtain ⟨g1, g2, g3, -⟩ := ULOG_frame e m args s
      obtain ⟨s1, l1, h1, h2, h3⟩ := ih (ULOG e m args s) l
        (by rw [g1, g2]; exact hl) (by rw [g1, g3]; exact hinv) hok (by simp at hf ⊢; omega)
      exact ⟨s1, l1, by simp only [run, step]; exact h1, h2, h3⟩

theorem set_level_mem_regex_mem (R : RegexLib) (preg : R.regex_t) (v r : Int)
    (l : List Addr) (mem : Addr → uLog_entry) :
    set_level_mem r l (regex_mem R preg v l mem) = set_level_mem r l mem := by
  funext b
  by_cases hb : b ∈ l
  · by_cases hm : R.regexec preg (mem b).message = REG_NOMATCH
    · simp [set_level_mem, regex_mem, hb, hm]
    · simp [set_level_mem, regex_mem, hb, hm]
  · simp [set_level_mem, regex_mem, hb]

theorem set_level_mem_idem (r : Int) (l : List Addr) (mem : Addr → uLog_entry) :
    set_level_mem r l (set_level_mem r l mem) = set_level_mem r l mem := by
  funext b
  by_cases hb : b ∈ l
  · simp [set_level_mem, hb]
  · simp [set_level_mem, hb]

theorem char_of_byte_mod (b : Nat) : char_of_byte (b % 256) = char_of_byte b := by
  simp [char_of_byte, Nat.mod_mod]

theorem uLog_level_of_traced_loop_congr (read1 read2 : Nat → Option Nat) (b1 b2 : Nat)
    (h1 : read1 0 = some b1) (h2 : read2 0 = some b2)
    (hc : char_of_byte b1 = char_of_byte b2) :
    ∀ (fuel level : Nat) (t : LevelTrace),
      uLog_level_of_traced_loop read1 fuel level t =
        uLog_level_of_traced_loop read2 fuel level t := by
  intro fuel
  induction fuel with
  | zero => intro level t; rfl
  | succ n ih =>
    intro level t
    simp only [uLog_level_of_traced_loop, h1, h2, ih]
    cases ULOG_LEVELS[level]? with
    | none => rfl
    | some c => simp only [hc]

/-- The recorded run for each possible first byte: it ends, stays in bounds and
returns what `uLog_level_of` returns. -/
theorem uLog_level_of_traced_byte (n : Nat) (hn : n < 256) :
    (uLog_level_of_traced (fun _ => some n)).any
      (fun t => decide (t.in_bounds ∧ uLog_level_of [n] = some t.result)) = true := by
  interval_cases n <;> decide

theorem foreach_report_state :
    ∀ (fuel : Nat) (head : Option Addr) (s : State) (n : Int × Int) (s1 : State) (n1 : Int × Int),
      ULOG_FOREACH_from report_action fuel head s n = some (s1, n1) → s1 = s := by
  intro fuel
  induction fuel with
  | zero =>
    intro head s n s1 n1 h
    cases head with
    | none => simp only [ULOG_FOREACH_from, Option.some.injEq, Prod.mk.injEq] at h; exact h.1.symm
    | some a => simp [ULOG_FOREACH_from] at h
  | succ f ih =>
    intro head s n s1 n1 h
    cases head with
    | none => simp only [ULOG_FOREACH_from, Option.some.injEq, Prod.mk.injEq] at h; exact h.1.symm
    | some a =>
      simp only [ULOG_FOREACH_from, report_action] at h
      exact ih _ s _ s1 n1 h

/-! ## The pattern engine for every value: lemmas -/

/-- What `uLog_enable_by_regex` does when the pattern compiles, for every value `v`,
on a registry that is the list `l`: it returns; every registered entry on whose whole
message `regexec` does not answer `REG_NOMATCH` has the flag `(char) v`, which is `v`
itself when `v` is in the range of `char`; every other entry is unchanged; the
returned value is the number of registered entries that matched; the head and the
threshold are unchanged. -/
theorem uLog_enable_by_regex_spec (R : RegexLib) (site : Addr) (s : State) (l : List Addr)
    (fuel : Nat) (p : CString) (v : Int) (preg : R.regex_t)
    (hp : R.regcomp p = some preg)
    (hl : isList s.mem s.registry l) (hf : l.length ≤ fuel) :
    ∃ s1 n, uLog_enable_by_regex R site fuel p v s = some (s1, n) ∧
      (∀ a ∈ l, R.regexec preg (s.mem a).message ≠ REG_NOMATCH →
        (s1.mem a).enabled = int_to_char v ∧
        (-128 ≤ v → v ≤ 127 → (s1.mem a).enabled = v)) ∧
      (∀ a ∈ l, R.regexec preg (s.mem a).message = REG_NOMATCH → s1.mem a = s.mem a) ∧
      (∀ a, a ∉ l → s1.mem a = s.mem a) ∧
      (∀ a, (s1.mem a).message = (s.mem a).message ∧ (s1.mem a).next = (s.mem a).next) ∧
      n = ((l.filter (fun a => decide (R.regexec preg (s.mem a).message ≠ REG_NOMATCH))).length
        : Int) ∧
      s1.registry = s.registry ∧ s1.level = s.level ∧ isList s1.mem s1.registry l := by
  refine ⟨_, _, uLog_enable_by_regex_eq R site s l fuel p v preg hp hl hf, ?_, ?_, ?_, ?_, ?_,
    rfl, rfl, ?_⟩
  · intro a ha hm
    have he : (regex_mem R preg v l s.mem a).enabled = int_to_char v := by
      simp only [regex_mem, ha, hm, ne_eq, not_false_eq_true, and_self, if_true]
    exact ⟨he, fun hv1 hv2 => he.trans (int_to_char_of_range v hv1 hv2)⟩
  · intro a _ hm
    show regex_mem R preg v l s.mem a = _
    simp [regex_mem, hm]
  · intro a ha
    show regex_mem R preg v l s.mem a = _
    simp [regex_mem, ha]
  · exact fun a => regex_mem_frame R preg v l s.mem a
  · simp [regex_count, List.countP_eq_length_filter]
  · exact isList_frame s.mem _ l _ (fun a _ => (regex_mem_frame R preg v l s.mem a).2) hl

/-- The pattern "trace" with value 1 over the scenario entries with the level at 3:
the third entry becomes enabled, the other two stay as they were, and 1 is returned. -/
theorem uLog_enable_by_regex_spec_witness :
    literal_regex.regcomp (cstr "trace") = some (cstr "trace") ∧
    isList scenario_error.mem scenario_error.registry [3, 2, 1] ∧
    ∃ s1 n, uLog_enable_by_regex literal_regex 0 3 (cstr "trace") 1 scenario_error
        = some (s1, n) ∧ n = 1 ∧ (s1.mem 3).enabled = 1 ∧
      s1.mem 2 = scenario_error.mem 2 ∧ s1.mem 1 = scenario_error.mem 1 ∧
      (scenario_error.mem 1).enabled = 1 ∧ (scenario_error.mem 2).enabled = 0 ∧
      (scenario_error.mem 3).enabled = 0 := by
  refine ⟨by rfl, by decide, ?_⟩
  obtain ⟨s1, n, h, hmatch, hno, -, -, hn, -, -, -⟩ :=
    uLog_enable_by_regex_spec literal_regex 0 scenario_error [3, 2, 1] 3 (cstr "trace") 1
      (cstr "trace") (by rfl) (by decide) (by decide)
  refine ⟨s1, n, h, ?_, (hmatch 3 (by decide) (by decide)).2 (by decide) (by decide),
    hno 2 (by decide) (by decide), hno 1 (by decide) (by decide), by decide, by decide,
    by decide⟩
  rw [hn]
  decide

/-- The order of the two engines, when the pattern compiles, on a registry that is the
list `l`: (i) for every value `v`, `uLog_enable_by_regex(p, v)` followed by `uLog_set_level(r)`
gives exactly the state that `uLog_set_level(r)` alone gives, and a second
`uLog_set_level(r)` changes nothing; (ii) `uLog_set_level(r)` followed by
`uLog_enable_by_regex(p, v)` leaves every matching entry at `v` when `v` is in the
range of `char`, whatever its rank, and every non-matching entry at `rank <= r`. -/
theorem last_operation_wins (R : RegexLib) (site : Addr) (s : State) (l : List Addr)
    (fuel : Nat) (p : CString) (v r : Int) (preg : R.regex_t)
    (hp : R.regcomp p = some preg)
    (hl : isList s.mem s.registry l) (hf : l.length ≤ fuel) :
    (∃ s1 n s2, uLog_enable_by_regex R site fuel p v s = some (s1, n) ∧
      uLog_set_level fuel r s1 = some s2 ∧ uLog_set_level fuel r s = some s2 ∧
      uLog_set_level fuel r s2 = some s2) ∧
    (∃ t1 t2 n, uLog_set_level fuel r s = some t1 ∧
      uLog_enable_by_regex R site fuel p v t1 = some (t2, n) ∧
      ∀ a ∈ l,
        (R.regexec preg (s.mem a).message ≠ REG_NOMATCH → -128 ≤ v → v ≤ 127 →
          (t2.mem a).enabled = v) ∧
        (R.regexec preg (s.mem a).message = REG_NOMATCH →
          ∃ k, uLog_level_of (s.mem a).message = some k ∧
            (t2.mem a).enabled = if k ≤ r then 1 else 0)) := by
  have hl1 : isList (regex_mem R preg v l s.mem) s.registry l :=
    isList_frame s.mem _ l _ (fun a _ => (regex_mem_frame R preg v l s.mem a).2) hl
  have hl2 : isList (set_level_mem r l s.mem) s.registry l :=
    isList_frame s.mem _ l _ (fun a _ => (set_level_mem_frame r l s.mem a).2) hl
  constructor
  · refine ⟨_, _, { s with level := r, mem := set_level_mem r l s.mem },
      uLog_enable_by_regex_eq R site s l fuel p v preg hp hl hf, ?_,
      uLog_set_level_eq s l r fuel hl hf, ?_⟩
    · rw [uLog_set_level_eq { s with mem := regex_mem R preg v l s.mem } l r fuel hl1 hf]
      simp only [set_level_mem_regex_mem]
    · rw [uLog_set_level_eq { s with level := r, mem := set_level_mem r l s.mem } l r fuel
        hl2 hf]
      simp only [set_level_mem_idem]
  · refine ⟨_, _, _, uLog_set_level_eq s l r fuel hl hf,
      uLog_enable_by_regex_eq R site { s with level := r, mem := set_level_mem r l s.mem } l
        fuel p v preg hp hl2 hf, ?_⟩
    intro a ha
    have hmsg : (set_level_mem r l s.mem a).message = (s.mem a).message :=
      (set_level_mem_frame r l s.mem a).1
    constructor
    · intro hm hv1 hv2
      show (regex_mem R preg v l (set_level_mem r l s.mem) a).enabled = v
      simp only [regex_mem, ha, hmsg, hm, ne_eq, not_false_eq_true, and_self, if_true]
      exact int_to_char_of_range v hv1 hv2
    · intro hm
      refine ⟨rank (s.mem a).message, uLog_level_of_eq_rank _, ?_⟩
      show (regex_mem R preg v l (set_level_mem r l s.mem) a).enabled = _
      simp [regex_mem, hmsg, hm, set_level_mem, ha, level_le]

/-- The two orders of `uLog_set_level(3)` and `uLog_enable_by_regex("trace", 1)` over
the scenario entries. -/
theorem last_operation_wins_witness :
    literal_regex.regcomp (cstr "trace") = some (cstr "trace") ∧
    isList scenario.mem scenario.registry [3, 2, 1] ∧
    (∃ s1 n s2, uLog_enable_by_regex literal_regex 0 3 (cstr "trace") 1 scenario = some (s1, n) ∧
      uLog_set_level 3 3 s1 = some s2 ∧ uLog_set_level 3 3 scenario = some s2) ∧
    (∃ t1 t2 n, uLog_set_level 3 3 scenario = some t1 ∧
      uLog_enable_by_regex literal_regex 0 3 (cstr "trace") 1 t1 = some (t2, n) ∧
      (t2.mem 3).enabled = 1 ∧ (t2.mem 2).enabled = 0) := by
  obtain ⟨⟨s1, n, s2, h1, h2, h3, -⟩, ⟨t1, t2, m, g1, g2, g3⟩⟩ :=
    last_operation_wins literal_regex 0 scenario [3, 2, 1] 3 (cstr "trace") 1 3 (cstr "trace")
      (by rfl) (by decide) (by decide)
  refine ⟨by rfl, by decide, ⟨s1, n, s2, h1, h2, h3⟩, ⟨t1, t2, m, g1, g2, ?_, ?_⟩⟩
  · exact (g3 3 (by decide)).1 (by decide) (by decide) (by decide)
  · obtain ⟨k, hk, he⟩ := (g3 2 (by decide)).2 (by decide)
    have hk6 : k = 6 := by
      have h6 : uLog_level_of (scenario.mem 2).message = some 6 := by rfl
      rw [h6] at hk; exact (Option.some.inj hk).symm
    rw [he, hk6]; rfl

/-! ## Claims -/

/-- C1: on a registry that is the list `l`, `uLog_set_level(r)` returns, stores `r` as
the threshold, keeps the head, the list, every message and every `next` link, and
leaves every registered entry with `enabled = 1` when its rank (possibly -1) is
at most `r` and `enabled = 0` otherwise. -/
theorem uLog_set_level_spec (s : State) (l : List Addr) (r : Int) (fuel : Nat)
    (hl : isList s.mem s.registry l) (hf : l.length ≤ fuel) :
    ∃ s1, uLog_set_level fuel r s = some s1 ∧ s1.level = r ∧
      s1.registry = s.registry ∧ isList s1.mem s1.registry l ∧
      (∀ a, (s1.mem a).message = (s.mem a).message ∧ (s1.mem a).next = (s.mem a).next) ∧
      (∀ a ∈ l, ∃ k, uLog_level_of (s.mem a).message = some k ∧ -1 ≤ k ∧ k ≤ 7 ∧
        (s1.mem a).enabled = if k ≤ r then 1 else 0) := by
  refine ⟨_, uLog_set_level_eq s l r fuel hl hf, rfl, rfl, ?_, ?_, ?_⟩
  · refine isList_frame s.mem _ l _ (fun a _ => ?_) hl
    show (set_level_mem r l s.mem a).next = _
    unfold set_level_mem
    split <;> rfl
  · intro a
    show (set_level_mem r l s.mem a).message = _ ∧ (set_level_mem r l s.mem a).next = _
    unfold set_level_mem
    split <;> exact ⟨rfl, rfl⟩
  · intro a ha
    refine ⟨rank (s.mem a).message, uLog_level_of_eq_rank _, (rank_bounds _).1,
      (rank_bounds _).2, ?_⟩
    show (set_level_mem r l s.mem a).enabled = _
    simp [set_level_mem, ha, level_le]

/-- Witness of C1: over the entries "E: failed %d", "I: started", "D: trace %s",
`uLog_set_level(3)` leaves only the first one enabled. -/
theorem uLog_set_level_spec_witness :
    isList scenario.mem scenario.registry [3, 2, 1] ∧
    ∃ s1, uLog_set_level 3 3 scenario = some s1 ∧ s1.level = 3 ∧
      isList s1.mem s1.registry [3, 2, 1] ∧
      (s1.mem 1).message = cstr "E: failed %d" ∧ (s1.mem 1).enabled = 1 ∧
      (s1.mem 2).message = cstr "I: started" ∧ (s1.mem 2).enabled = 0 ∧
      (s1.mem 3).message = cstr "D: trace %s" ∧ (s1.mem 3).enabled = 0 := by
  refine ⟨by decide, ?_⟩
  obtain ⟨s1, h, hlev, _, hlist, hmsg, hflag⟩ :=
    uLog_set_level_spec scenario [3, 2, 1] 3 3 (by decide) (by decide)
  refine ⟨s1, h, hlev, hlist, ?_, ?_, ?_, ?_, ?_, ?_⟩
  · rw [(hmsg 1).1]; rfl
  · obtain ⟨k, hk, _, _, he⟩ := hflag 1 (by decide)
    have : k = 3 := by
      have h3 : uLog_level_of (scenario.mem 1).message = some 3 := by rfl
      rw [h3] at hk; exact (Option.some.inj hk).symm
    rw [he, this]; rfl
  · rw [(hmsg 2).1]; rfl
  · obtain ⟨k, hk, _, _, he⟩ := hflag 2 (by decide)
    have : k = 6 := by
      have h3 : uLog_level_of (scenario.mem 2).message = some 6 := by rfl
      rw [h3] at hk; exact (Option.some.inj hk).symm
    rw [he, this]; rfl
  · rw [(hmsg 3).1]; rfl
  · obtain ⟨k, hk, _, _, he⟩ := hflag 3 (by decide)
    have : k = 7 := by
      have h3 : uLog_level_of (scenario.mem 3).message = some 7 := by rfl
      rw [h3] at hk; exact (Option.some.inj hk).symm
    rw [he, this]; rfl

/-- C2 (failing input): with the level at 3 over the scenario entries, the call
`uLog_enable_by_regex("trace", 256)` matches the third entry and returns 1, yet
stores 0 in its `char` flag: the entry tests as disabled although the value passed
is non-zero. -/
theorem uLog_enable_by_regex_truncates :
    (uLog_enable_by_regex literal_regex 0 3 (cstr "trace") 256 scenario_error).map
      (fun p => ((p.1.mem 1).enabled, (p.1.mem 2).enabled, (p.1.mem 3).enabled, p.2)) =
      some (1, 0, 0, 1) ∧
    literal_regex.regexec (cstr "trace") (scenario_error.mem 3).message = 0 ∧
    (256 : Int) ≠ 0 := by
  decide

/-- C3: on a registry that is the list `l`, `uLog_enable_by_regex` returns; the value
is -1 exactly when the pattern does not compile; otherwise it is a count between 0
and the number of registered entries; and when the pattern does not compile the
memory of entries (flags, messages, links), the head, the threshold and the file
are what they were. -/
theorem uLog_enable_by_regex_error (R : RegexLib) (site : Addr) (s : State) (l : List Addr)
    (fuel : Nat) (p : CString) (v : Int)
    (hl : isList s.mem s.registry l) (hf : l.length ≤ fuel) :
    ∃ s1 n, uLog_enable_by_regex R site fuel p v s = some (s1, n) ∧
      (n = -1 ↔ R.regcomp p = none) ∧
      (R.regcomp p ≠ none → 0 ≤ n ∧ n ≤ (l.length : Int)) ∧
      (R.regcomp p = none → s1.mem = s.mem ∧ s1.registry = s.registry ∧
        s1.level = s.level ∧ s1.file = s.file ∧ isList s1.mem s1.registry l) := by
  cases hp : R.regcomp p with
  | none =>
    refine ⟨ULOG site (cstr "e: bad regex expression") [] s, -1, ?_, by simp, by simp, ?_⟩
    · simp [uLog_enable_by_regex, hp]
    · intro _
      obtain ⟨h1, h2, h3, h4⟩ := ULOG_frame site (cstr "e: bad regex expression") [] s
      refine ⟨h1, h2, h3, h4, ?_⟩
      rw [h1, h2]; exact hl
  | some preg =>
    refine ⟨_, _, uLog_enable_by_regex_eq R site s l fuel p v preg hp hl hf, ?_, ?_, by simp⟩
    · constructor
      · intro h
        have h0 : (0 : Int) ≤ (regex_count R preg l s.mem : Int) := Int.ofNat_nonneg _
        omega
      · intro h; simp at h
    · intro _
      have := regex_count_le R preg l s.mem
      exact ⟨Int.ofNat_nonneg _, by exact_mod_cast this⟩

/-- Witness of C3: over the scenario entries with the level at 3, the pattern
"[invalid(" does not compile; the call returns -1 and changes no entry. -/
theorem uLog_enable_by_regex_error_witness :
    isList scenario_error.mem scenario_error.registry [3, 2, 1] ∧
    literal_regex.regcomp (cstr "[invalid(") = none ∧
    ∃ s1 n, uLog_enable_by_regex literal_regex 0 3 (cstr "[invalid(") 1 scenario_error
        = some (s1, n) ∧ n = -1 ∧ s1.mem = scenario_error.mem ∧
      s1.registry = scenario_error.registry ∧ s1.level = scenario_error.level := by
  refine ⟨by decide, by rfl, ?_⟩
  obtain ⟨s1, n, h, hn, _, hfail⟩ :=
    uLog_enable_by_regex_error literal_regex 0 scenario_error [3, 2, 1] 3 (cstr "[invalid(") 1
      (by decide) (by decide)
  have hc : literal_regex.regcomp (cstr "[invalid(") = none := by rfl
  exact ⟨s1, n, h, hn.2 hc, (hfail hc).1, (hfail hc).2.1, (hfail hc).2.2.1⟩

/-- C4: `uLog_level_of` depends only on the first character of the message, and maps
the markers to the syslog scale: '0' to 0, 'a'/'A' to 1, 'c'/'C' to 2, 'e'/'E' to 3,
'w'/'W' to 4, 'n'/'N' to 5, 'i'/'I' to 6, 'd'/'D' to 7; an upper-case marker and its
lower-case form give the same rank. -/
theorem uLog_level_of_markers :
    (∀ (c : Nat) (r1 r2 : CString), uLog_level_of (c :: r1) = uLog_level_of (c :: r2)) ∧
    (∀ rest : CString,
      uLog_level_of ('0'.toNat :: rest) = some 0 ∧
      uLog_level_of ('a'.toNat :: rest) = some 1 ∧ uLog_level_of ('A'.toNat :: rest) = some 1 ∧
      uLog_level_of ('c'.toNat :: rest) = some 2 ∧ uLog_level_of ('C'.toNat :: rest) = some 2 ∧
      uLog_level_of ('e'.toNat :: rest) = some 3 ∧ uLog_level_of ('E'.toNat :: rest) = some 3 ∧
      uLog_level_of ('w'.toNat :: rest) = some 4 ∧ uLog_level_of ('W'.toNat :: rest) = some 4 ∧
      uLog_level_of ('n'.toNat :: rest) = some 5 ∧ uLog_level_of ('N'.toNat :: rest) = some 5 ∧
      uLog_level_of ('i'.toNat :: rest) = some 6 ∧ uLog_level_of ('I'.toNat :: rest) = some 6 ∧
      uLog_level_of ('d'.toNat :: rest) = some 7 ∧ uLog_level_of ('D'.toNat :: rest) = some 7) := by
  have key : ∀ (c : Nat) (r1 r2 : CString), uLog_level_of (c :: r1) = uLog_level_of (c :: r2) :=
    fun c r1 r2 => uLog_level_of_congr _ _ rfl
  refine ⟨key, fun rest => ⟨?_, ?_, ?_, ?_, ?_, ?_, ?_, ?_, ?_, ?_, ?_, ?_, ?_, ?_, ?_⟩⟩ <;>
    exact (key _ rest []).trans rfl

/-- C5 (failing input): the message "\x10: x" starts with the control character
0x10, which is none of the fifteen markers, and `uLog_level_of` returns rank 0 for
it instead of -1. -/
theorem uLog_level_of_accepts_DLE :
    message0 [16, 58, 32, 120] ∉ MARKERS ∧ uLog_level_of [16, 58, 32, 120] = some 0 := by
  decide

/-- C6: on a registry that is the list `l` and an entry `e` not in it,
`uLog_register(e)` returns; `e` is the new head and `e.next` the old head; `e.enabled`
is 1 when the rank of `e.message` is at most the current threshold and 0 otherwise;
`e.message`, the threshold, the file, the output and every other entry are unchanged;
the registry is `e :: l`; and the threshold of the initial `uLog_` is 5. -/
theorem uLog_register_spec (s : State) (l : List Addr) (e : Addr)
    (hl : isList s.mem s.registry l) (he : e ∉ l) :
    ∃ s1, uLog_register e s = some s1 ∧ s1.registry = some e ∧
      (s1.mem e).next = s.registry ∧
      (∃ k, uLog_level_of (s.mem e).message = some k ∧
        (s1.mem e).enabled = if k ≤ s.level then 1 else 0) ∧
      (s1.mem e).message = (s.mem e).message ∧
      s1.level = s.level ∧ s1.file = s.file ∧ s1.out = s.out ∧
      (∀ a, a ≠ e → s1.mem a = s.mem a) ∧
      (∀ a ∈ l, s1.mem a = s.mem a) ∧
      isList s1.mem s1.registry (e :: l) ∧
      (∀ mem, (uLog_ mem).level = 5 ∧ (uLog_ mem).registry = none) := by
  refine ⟨_, uLog_register_eq e s, rfl, ?_, ⟨rank (s.mem e).message,
    uLog_level_of_eq_rank _, ?_⟩, ?_, rfl, rfl, rfl, ?_, ?_, uLog_register_isList e s l hl he,
    fun _ => ⟨rfl, rfl⟩⟩
  · simp
  · simp [level_le]
  · simp
  · intro a ha
    simp [Function.update_noteq ha]
  · intro a ha
    have hne : a ≠ e := fun h => he (h ▸ ha)
    simp [Function.update_noteq hne]

/-- Witness of C6: registering the call site at address 2 ("I: started") on the
initial `uLog_` after address 1 has been registered. -/
theorem uLog_register_spec_witness :
    ∃ s0, uLog_register 1 (uLog_ scenario_mem) = some s0 ∧
      isList s0.mem s0.registry [1] ∧ 2 ∉ [1] ∧
      ∃ s1, uLog_register 2 s0 = some s1 ∧ s1.registry = some 2 ∧
        (s1.mem 2).next = some 1 ∧ (s1.mem 2).enabled = 0 ∧ s1.level = 5 ∧
        s1.mem 1 = s0.mem 1 ∧ isList s1.mem s1.registry [2, 1] := by
  obtain ⟨s0, h0, hr0, -, -, -, hlev0, -, -, -, -, hl0, -⟩ :=
    uLog_register_spec (uLog_ scenario_mem) [] 1 rfl (by simp)
  obtain ⟨s1, h1, hr1, hn1, ⟨k, hk, hen⟩, hm1, hlev1, -, -, -, hold, hl1, -⟩ :=
    uLog_register_spec s0 [1] 2 hl0 (by decide)
  refine ⟨s0, h0, hl0, by decide, s1, h1, hr1, by rw [hn1, hr0], ?_, by rw [hlev1, hlev0]; rfl,
    hold 1 (by simp), hl1⟩
  have hs0 : s0.mem 2 = scenario_mem 2 := by
    have := uLog_register_eq 1 (uLog_ scenario_mem)
    rw [h0] at this
    rw [Option.some.inj this]
    rfl
  have hk6 : k = 6 := by
    have h6 : uLog_level_of (s0.mem 2).message = some 6 := by rw [hs0]; rfl
    rw [h6] at hk; exact (Option.some.inj hk).symm
  rw [hen, hk6, hlev0]
  rfl

/-- C8: after pairwise distinct entries `es` have been registered in order on an
empty registry, `ULOG_FOREACH` with enough fuel returns and visits exactly the
entries of `es` in reverse order, each once, whether its action is that of
`uLog_set_level`, of `uLog_enable_by_regex` or of `uLog_report`. -/
theorem ULOG_FOREACH_visits (R : RegexLib) (preg : R.regex_t) (v : Int)
    (es : List Addr) (s0 : State) (fuel : Nat)
    (hn : es.Nodup) (h0 : s0.registry = none) (hf : es.length ≤ fuel) :
    ∃ s, register_all es s0 = some s ∧ isList s.mem s.registry es.reverse ∧
      (∃ s1 x, ULOG_FOREACH (traced set_level_action) fuel s ((), []) =
        some (s1, (x, es.reverse))) ∧
      (∃ s1 n, ULOG_FOREACH (traced (enable_by_regex_action R preg v)) fuel s (0, []) =
        some (s1, (n, es.reverse))) ∧
      (∃ s1 n, ULOG_FOREACH (traced report_action) fuel s ((0, 0), []) =
        some (s1, (n, es.reverse))) ∧
      es.reverse.Nodup ∧ ∀ e, e ∈ es.reverse ↔ e ∈ es := by
  obtain ⟨s, hs, hl, -, -⟩ := register_all_spec es s0 [] h0 hn (fun _ _ => by simp)
  have hl2 : isList s.mem s.registry es.reverse := by simpa using hl
  have hf2 : es.reverse.length ≤ fuel := by simpa using hf
  refine ⟨s, hs, hl2, ?_, ?_, ?_, List.nodup_reverse.mpr hn, fun e => List.mem_reverse⟩
  · obtain ⟨s1, x1, h, -⟩ := foreach_traced set_level_action set_level_action_ok
      es.reverse fuel _ s () [] hl2 hf2
    exact ⟨s1, x1, by simpa [ULOG_FOREACH] using h⟩
  · obtain ⟨s1, x1, h, -⟩ := foreach_traced (enable_by_regex_action R preg v)
      (enable_by_regex_action_ok R preg v) es.reverse fuel _ s 0 [] hl2 hf2
    exact ⟨s1, x1, by simpa [ULOG_FOREACH] using h⟩
  · obtain ⟨s1, x1, h, -⟩ := foreach_traced report_action report_action_ok
      es.reverse fuel _ s (0, 0) [] hl2 hf2
    exact ⟨s1, x1, by simpa [ULOG_FOREACH] using h⟩

/-- Witness of C8: the three scenario entries, registered in the order 1, 2, 3, are
visited in the order 3, 2, 1. -/
theorem ULOG_FOREACH_visits_witness :
    [1, 2, 3].Nodup ∧ (uLog_ scenario_mem).registry = none ∧
    ∃ s, register_all [1, 2, 3] (uLog_ scenario_mem) = some s ∧
      (∃ s1 n, ULOG_FOREACH (traced report_action) 3 s ((0, 0), []) =
        some (s1, (n, [3, 2, 1]))) := by
  refine ⟨by decide, rfl, ?_⟩
  obtain ⟨s, hs, -, -, -, h, -, -⟩ :=
    ULOG_FOREACH_visits literal_regex (cstr "trace") 1 [1, 2, 3] (uLog_ scenario_mem) 3
      (by decide) rfl (by decide)
  exact ⟨s, hs, h⟩

/-- C9: on a registry that is the list `l`, every operation (registering an entry not
in `l`, `uLog_set_level`, `uLog_enable_by_regex`, `uLog_set_file`, a log call) returns
and leaves a registry that ends with `l`: every entry of `l` is still registered, in
the same order, no message has changed, no `next` link of a registered entry has
changed, and the only `next` link an operation writes is that of the entry being
registered. -/
theorem step_preserves_registry (R : RegexLib) (site : Addr) (fuel : Nat) (op : Op)
    (s : State) (l : List Addr)
    (hl : isList s.mem s.registry l) (hf : l.length ≤ fuel)
    (hfresh : ∀ e, op = Op.register e → e ∉ l) :
    ∃ s1, step R site fuel op s = some s1 ∧
      (∃ pre, isList s1.mem s1.registry (pre ++ l)) ∧
      (∀ a, (s1.mem a).message = (s.mem a).message) ∧
      (∀ a ∈ l, (s1.mem a).next = (s.mem a).next) ∧
      (∀ a, (s1.mem a).next ≠ (s.mem a).next → op = Op.register a) := by
  cases op with
  | register e =>
    have he : e ∉ l := hfresh e rfl
    have hupd : ∀ a, a ≠ e → (Function.update s.mem e
        { enabled := level_le (rank (s.mem e).message) s.level,
          message := (s.mem e).message, next := s.registry } a) = s.mem a :=
      fun a ha => Function.update_noteq ha _ _
    refine ⟨_, uLog_register_eq e s, ⟨[e], uLog_register_isList e s l hl he⟩, ?_, ?_, ?_⟩
    · intro a
      by_cases ha : a = e
      · subst ha; simp
      · show (Function.update s.mem e _ a).message = _
        rw [hupd a ha]
    · intro a ha
      have hne : a ≠ e := fun h => he (h ▸ ha)
      show (Function.update s.mem e _ a).next = _
      rw [hupd a hne]
    · intro a hne
      by_cases ha : a = e
      · rw [ha]
      · exact absurd (by show (Function.update s.mem e _ a).next = _; rw [hupd a ha]) hne
  | set_level r =>
    refine ⟨_, uLog_set_level_eq s l r fuel hl hf, ⟨[], ?_⟩, ?_, ?_, ?_⟩
    · exact isList_frame s.mem _ l _ (fun a _ => (set_level_mem_frame r l s.mem a).2) hl
    · exact fun a => (set_level_mem_frame r l s.mem a).1
    · exact fun a _ => (set_level_mem_frame r l s.mem a).2
    · exact fun a hne => absurd (set_level_mem_frame r l s.mem a).2 hne
  | enable_by_regex p v =>
    cases hp : R.regcomp p with
    | none =>
      obtain ⟨h1, h2, -, -⟩ := ULOG_frame site (cstr "e: bad regex expression") [] s
      refine ⟨ULOG site (cstr "e: bad regex expression") [] s, ?_, ⟨[], ?_⟩, ?_, ?_, ?_⟩
      · simp [step, uLog_enable_by_regex, hp]
      · rw [h1, h2]; exact hl
      · intro a; rw [h1]
      · intro a _; rw [h1]
      · intro a hne; rw [h1] at hne; exact absurd rfl hne
    | some preg =>
      refine ⟨{ s with mem := regex_mem R preg v l s.mem }, ?_, ⟨[], ?_⟩, ?_, ?_, ?_⟩
      · simp [step, uLog_enable_by_regex_eq R site s l fuel p v preg hp hl hf]
      · exact isList_frame s.mem _ l _ (fun a _ => (regex_mem_frame R preg v l s.mem a).2) hl
      · exact fun a => (regex_mem_frame R preg v l s.mem a).1
      · exact fun a _ => (regex_mem_frame R preg v l s.mem a).2
      · exact fun a hne => absurd (regex_mem_frame R preg v l s.mem a).2 hne
  | set_file f =>
    exact ⟨uLog_set_file f s, rfl, ⟨[], hl⟩, fun _ => rfl, fun _ _ => rfl,
      fun a hne => absurd rfl hne⟩
  | log e m args =>
    obtain ⟨h1, h2, -, -⟩ := ULOG_frame e m args s
    refine ⟨ULOG e m args s, rfl, ⟨[], ?_⟩, ?_, ?_, ?_⟩
    · rw [h1, h2]; exact hl
    · intro a; rw [h1]
    · intro a _; rw [h1]
    · intro a hne; rw [h1] at hne; exact absurd rfl hne

/-- Witness of C9: `uLog_enable_by_regex("trace", 1)` over the scenario entries. -/
theorem step_preserves_registry_witness :
    isList scenario.mem scenario.registry [3, 2, 1] ∧
    ∃ s1, step literal_regex 0 3 (Op.enable_by_regex (cstr "trace") 1) scenario = some s1 ∧
      (∃ pre, isList s1.mem s1.registry (pre ++ [3, 2, 1])) ∧
      (∀ a, (s1.mem a).message = (scenario.mem a).message) ∧
      (∀ a ∈ [3, 2, 1], (s1.mem a).next = (scenario.mem a).next) := by
  refine ⟨by decide, ?_⟩
  obtain ⟨s1, h, hpre, hm, hnx, -⟩ :=
    step_preserves_registry literal_regex 0 3 (Op.enable_by_regex (cstr "trace") 1) scenario
      [3, 2, 1] (by decide) (by decide) (fun e h => by cases h)
  exact ⟨s1, h, hpre, hm, hnx⟩

/-- C10: a log call appends to the output exactly when its entry's flag is non-zero
and a file is set; it then appends the single call
`fprintf(file, _message "\n", args)`; otherwise the output is unchanged, in
particular for a call site whose entry still has its static initial value; the
memory of entries, the head, the threshold and the file are never changed. -/
theorem ULOG_writes (e : Addr) (m : CString) (args : Args) (s : State) :
    ((ULOG e m args s).out ≠ s.out ↔ ((s.mem e).enabled ≠ 0 ∧ s.file ≠ none)) ∧
    (∀ f, (s.mem e).enabled ≠ 0 → s.file = some f →
      (ULOG e m args s).out = s.out ++ [{ file := f, format := m ++ [10], args := args }]) ∧
    ((s.mem e).enabled = 0 ∨ s.file = none → (ULOG e m args s).out = s.out) ∧
    (s.mem e = static_entry m → (ULOG e m args s).out = s.out) ∧
    (ULOG e m args s).mem = s.mem ∧ (ULOG e m args s).registry = s.registry ∧
    (ULOG e m args s).level = s.level ∧ (ULOG e m args s).file = s.file := by
  refine ⟨?_, ?_, ?_, ?_, ULOG_frame e m args s⟩
  · unfold ULOG
    by_cases he : (s.mem e).enabled = 0
    · simp [he]
    · cases hf : s.file with
      | none => simp [he]
      | some f => simp [he]
  · intro f he hf
    simp [ULOG, he, hf]
  · intro h
    unfold ULOG
    rcases h with h | h
    · simp [h]
    · simp [h]
  · intro h
    simp [ULOG, h, static_entry]

/-- C11 (failing input): the scenario after `uLog_enable_by_regex("trace", 2)`, a
state reached through the public operations, has three registered entries of which
two are enabled (flags 1, 0, 2); `uLog_report` computes `n_entries = 3` and
`n_enabled = 3`. -/
theorem uLog_report_overcounts :
    (uLog_enable_by_regex literal_regex 0 3 (cstr "trace") 2 scenario).map
      (fun p => (uLog_report_counts 3 p.1, count_enabled p.1.mem [3, 2, 1],
        (p.1.mem 1).enabled, (p.1.mem 2).enabled, (p.1.mem 3).enabled)) =
      some (some (3, 3), 2, 1, 0, 2) ∧
    isList scenario_trace2.mem scenario_trace2.registry [3, 2, 1] ∧
    uLog_report_counts 3 scenario_trace2 = some (3, 3) ∧
    count_enabled scenario_trace2.mem [3, 2, 1] = 2 := by
  decide

/-- C12: an entry of the registry whose message has an invalid marker is enabled after
`uLog_set_level(r)` for every threshold `r >= 0`, and an entry with an invalid
marker is enabled by `uLog_register` whenever the threshold is `r`. -/
theorem invalid_marker_always_enabled (s : State) (l : List Addr) (e : Addr) (r : Int)
    (fuel : Nat) (hl : isList s.mem s.registry l) (hf : l.length ≤ fuel) (he : e ∈ l)
    (hinv : uLog_level_of (s.mem e).message = some (-1)) (hr : 0 ≤ r) :
    (∃ s1, uLog_set_level fuel r s = some s1 ∧ (s1.mem e).enabled = 1) ∧
    (∀ (t : State) (e2 : Addr), uLog_level_of (t.mem e2).message = some (-1) → t.level = r →
      ∃ t1, uLog_register e2 t = some t1 ∧ (t1.mem e2).enabled = 1) := by
  have hrank : ∀ m : CString, uLog_level_of m = some (-1) → rank m = -1 := by
    intro m hm
    rw [uLog_level_of_eq_rank] at hm
    exact Option.some.inj hm
  constructor
  · refine ⟨_, uLog_set_level_eq s l r fuel hl hf, ?_⟩
    show (set_level_mem r l s.mem e).enabled = 1
    have h1 : (-1 : Int) ≤ r := by omega
    simp [set_level_mem, he, hrank _ hinv, level_le, h1]
  · intro t e2 h2 hlev
    refine ⟨_, uLog_register_eq e2 t, ?_⟩
    have h1 : (-1 : Int) ≤ t.level := by omega
    simp [hrank _ h2, level_le, h1]

/-- Witness of C12: the template "x: no marker", registered at the default threshold
and then subjected to `uLog_set_level(0)`. -/
theorem invalid_marker_always_enabled_witness :
    isList invalid_scenario.mem invalid_scenario.registry [1] ∧
    uLog_level_of (invalid_scenario.mem 1).message = some (-1) ∧
    (∃ s1, uLog_set_level 1 0 invalid_scenario = some s1 ∧ (s1.mem 1).enabled = 1) ∧
    (∃ t1, uLog_register 1 { uLog_ invalid_mem with level := 0 } = some t1 ∧
      (t1.mem 1).enabled = 1) := by
  obtain ⟨h1, h2⟩ := invalid_marker_always_enabled invalid_scenario [1] 1 0 1
    (by decide) (by decide) (by decide) (by decide) (by decide)
  exact ⟨by decide, by decide, h1,
    h2 { uLog_ invalid_mem with level := 0 } 1 (by decide) rfl⟩

/-- C13 (failing input): `uLog_set_level(3)` followed by
`uLog_enable_by_regex("failed", 256)` over the scenario entries: the first entry
matches and the call returns 1, but its flag is left at 0, not at the value passed. -/
theorem last_operation_wins_fails_256 :
    ((uLog_set_level 3 3 scenario).bind
        (fun s => uLog_enable_by_regex literal_regex 0 3 (cstr "failed") 256 s)).map
      (fun p => ((p.1.mem 1).enabled, p.2)) = some (0, 1) ∧
    literal_regex.regexec (cstr "failed") (scenario.mem 1).message = 0 ∧
    (0 : Int) ≠ 256 := by
  decide

/-- C14: on a registry that is the list `l` and thresholds `r1 <= r2`, every entry
enabled after `uLog_set_level(r1)` is enabled after `uLog_set_level(r2)`; after
`uLog_set_level(5)` an entry is enabled exactly when its rank is at most 5, so the
entries of rank 6 (Info) and 7 (Debug) are disabled; and after `uLog_set_level(r)`
with `r >= 7` every entry is enabled. -/
theorem uLog_set_level_monotone (s : State) (l : List Addr) (r1 r2 : Int) (fuel : Nat)
    (hl : isList s.mem s.registry l) (hf : l.length ≤ fuel) (h12 : r1 ≤ r2) :
    (∃ s1 s2, uLog_set_level fuel r1 s = some s1 ∧ uLog_set_level fuel r2 s = some s2 ∧
      ∀ a ∈ l, (s1.mem a).enabled ≠ 0 → (s2.mem a).enabled ≠ 0) ∧
    (∃ s5, uLog_set_level fuel 5 s = some s5 ∧
      ∀ a ∈ l, ∃ k, uLog_level_of (s.mem a).message = some k ∧
        ((s5.mem a).enabled = 1 ↔ k ≤ 5) ∧ ((s5.mem a).enabled = 0 ↔ 6 ≤ k)) ∧
    (∀ r, 7 ≤ r → ∃ s7, uLog_set_level fuel r s = some s7 ∧
      ∀ a ∈ l, (s7.mem a).enabled = 1) := by
  refine ⟨⟨_, _, uLog_set_level_eq s l r1 fuel hl hf, uLog_set_level_eq s l r2 fuel hl hf, ?_⟩,
    ⟨_, uLog_set_level_eq s l 5 fuel hl hf, ?_⟩, fun r hr =>
    ⟨_, uLog_set_level_eq s l r fuel hl hf, ?_⟩⟩
  · intro a ha
    show (set_level_mem r1 l s.mem a).enabled ≠ 0 → (set_level_mem r2 l s.mem a).enabled ≠ 0
    simp only [set_level_mem, ha, if_true, level_le]
    intro h
    have h1 : rank (s.mem a).message ≤ r1 := by
      by_contra hc
      simp [hc] at h
    have h2 : rank (s.mem a).message ≤ r2 := le_trans h1 h12
    simp [h2]
  · intro a ha
    refine ⟨rank (s.mem a).message, uLog_level_of_eq_rank _, ?_⟩
    show ((set_level_mem 5 l s.mem a).enabled = 1 ↔ _) ∧
      ((set_level_mem 5 l s.mem a).enabled = 0 ↔ _)
    simp only [set_level_mem, ha, if_true, level_le]
    by_cases h : rank (s.mem a).message ≤ 5
    · simp [h]; omega
    · simp [h]; omega
  · intro a ha
    show (set_level_mem r l s.mem a).enabled = 1
    have h7 : rank (s.mem a).message ≤ r := le_trans (rank_bounds _).2 hr
    simp [set_level_mem, ha, level_le, h7]

/-- Witness of C14: thresholds 3 and 7 over the scenario entries; `uLog_set_level(7)`
enables all three. -/
theorem uLog_set_level_monotone_witness :
    isList scenario.mem scenario.registry [3, 2, 1] ∧
    ∃ s7, uLog_set_level 3 7 scenario = some s7 ∧
      (s7.mem 1).enabled = 1 ∧ (s7.mem 2).enabled = 1 ∧ (s7.mem 3).enabled = 1 := by
  obtain ⟨-, -, h7⟩ := uLog_set_level_monotone scenario [3, 2, 1] 3 7 3
    (by decide) (by decide) (by decide)
  obtain ⟨s7, h, hall⟩ := h7 7 (le_refl 7)
  exact ⟨by decide, s7, h, hall 1 (by decide), hall 2 (by decide), hall 3 (by decide)⟩

/-- C15: a log call, whether it prints or not, and `uLog_set_file` leave the memory of
entries (every flag, message and link), the head of the registry and the threshold
as they were; `uLog_set_file` sets the file and leaves the output as it was, and a
log call leaves the file as it was. The same holds of the two remaining functions,
`uLog_init` and (whenever it returns) `uLog_report`. -/
theorem ULOG_and_set_file_frame (e : Addr) (m : CString) (args : Args) (f : Option FILE)
    (s : State) :
    ((ULOG e m args s).mem = s.mem ∧ (ULOG e m args s).registry = s.registry ∧
      (ULOG e m args s).level = s.level ∧ (ULOG e m args s).file = s.file) ∧
    ((uLog_set_file f s).mem = s.mem ∧ (uLog_set_file f s).registry = s.registry ∧
      (uLog_set_file f s).level = s.level ∧ (uLog_set_file f s).out = s.out ∧
      (uLog_set_file f s).file = f) ∧
    (∀ a, ((ULOG e m args s).mem a).enabled = (s.mem a).enabled ∧
      ((uLog_set_file f s).mem a).enabled = (s.mem a).enabled) ∧
    ((uLog_init s).mem = s.mem ∧ (uLog_init s).registry = s.registry ∧
      (uLog_init s).level = s.level) ∧
    (∀ (site : Addr) (quiet : Bool) (fuel : Nat) (s1 : State),
      uLog_report site quiet fuel s = some s1 →
        s1.mem = s.mem ∧ s1.registry = s.registry ∧ s1.level = s.level) := by
  refine ⟨ULOG_frame e m args s, ⟨rfl, rfl, rfl, rfl, rfl⟩, fun a => ⟨?_, rfl⟩,
    ⟨rfl, rfl, rfl⟩, ?_⟩
  · rw [(ULOG_frame e m args s).1]
  · intro site quiet fuel s1 h
    unfold uLog_report ULOG_FOREACH at h
    cases hr : ULOG_FOREACH_from report_action fuel s.registry s (0, 0) with
    | none => rw [hr] at h; simp at h
    | some p =>
      obtain ⟨s2, n⟩ := p
      have hs2 : s2 = s := foreach_report_state fuel _ s (0, 0) s2 n hr
      rw [hr] at h
      subst hs2
      cases quiet with
      | true =>
        simp only [if_true, Option.some.injEq] at h
        subst h
        exact ⟨rfl, rfl, rfl⟩
      | false =>
        simp only [Bool.false_eq_true, if_false, Option.some.injEq] at h
        subst h
        obtain ⟨g1, g2, g3, -⟩ := ULOG_frame site
          (cstr "i: uLog v%g: uLog_.level = %d, n_entries = %d, n_enabled = %d")
          [Arg.double 1 (-2), Arg.int s2.level, Arg.int n.1, Arg.int n.2] s2
        exact ⟨g1, g2, g3⟩

/-- C16: from the initial state (empty registry, threshold 5), every sequence of
registrations of entries not yet registered, calls of `uLog_set_level` and calls of
`uLog_enable_by_regex` whose pattern does not compile (log calls and `uLog_set_file`
may be interleaved) returns and ends in a state whose registry is a list in which
every entry has `enabled = 1` when the rank of its message is at most the current
threshold and `enabled = 0` otherwise. -/
theorem level_invariant_reachable (R : RegexLib) (site : Addr) (fuel : Nat)
    (mem : Addr → uLog_entry) (ops : List Op)
    (hok : level_ops_ok R [] ops) (hf : ops.length ≤ fuel) :
    ∃ s l, run R site fuel ops (uLog_ mem) = some s ∧ isList s.mem s.registry l ∧
      ∀ a ∈ l, ∃ k, uLog_level_of (s.mem a).message = some k ∧
        (s.mem a).enabled = if k ≤ s.level then 1 else 0 := by
  obtain ⟨s, l, h1, h2, h3⟩ := run_level_inv R site fuel ops (uLog_ mem) [] rfl
    (fun a ha => absurd ha (List.not_mem_nil a)) hok (by simpa using hf)
  exact ⟨s, l, h1, h2, fun a ha =>
    ⟨rank (s.mem a).message, uLog_level_of_eq_rank _, by rw [h3 a ha]; rfl⟩⟩

/-- Witness of C16: register 1, set the level to 3, register 2, a call of
`uLog_enable_by_regex` with the pattern "[invalid(", register 3. -/
theorem level_invariant_reachable_witness :
    level_ops_ok literal_regex []
      [Op.register 1, Op.set_level 3, Op.register 2,
        Op.enable_by_regex (cstr "[invalid(") 1, Op.register 3] ∧
    ∃ s l, run literal_regex 0 5
        [Op.register 1, Op.set_level 3, Op.register 2,
          Op.enable_by_regex (cstr "[invalid(") 1, Op.register 3] (uLog_ scenario_mem) = some s ∧
      isList s.mem s.registry l ∧
      ∀ a ∈ l, ∃ k, uLog_level_of (s.mem a).message = some k ∧
        (s.mem a).enabled = if k ≤ s.level then 1 else 0 := by
  have hok : level_ops_ok literal_regex []
      [Op.register 1, Op.set_level 3, Op.register 2,
        Op.enable_by_regex (cstr "[invalid(") 1, Op.register 3] :=
    ⟨by decide, by decide, by rfl, by decide, trivial⟩
  exact ⟨hok, level_invariant_reachable literal_regex 0 5 scenario_mem _ hok (by decide)⟩

/-- C17: when the first byte of the message can be read, whatever its value,
`uLog_level_of` returns; it makes at most 8 comparisons, reads `ULOG_LEVELS` at
indices 0..8 only and the message at index 0 only, and its result is in -1..7; the
result is that of `uLog_level_of` on every message with that first byte, and on the
empty message when the byte is the terminating NUL. -/
theorem uLog_level_of_in_bounds (read : Nat → Option Nat) (b : Nat) (hb : read 0 = some b) :
    ∃ t, uLog_level_of_traced read = some t ∧
      t.comparisons ≤ 8 ∧ (∀ i ∈ t.levels_read, i ≤ 8) ∧ (∀ j ∈ t.message_read, j = 0) ∧
      -1 ≤ t.result ∧ t.result ≤ 7 ∧
      (∀ rest : CString, uLog_level_of (b :: rest) = some t.result) ∧
      (b = 0 → uLog_level_of [] = some t.result) := by
  have hn : b % 256 < 256 := Nat.mod_lt _ (by decide)
  have hfin := uLog_level_of_traced_byte (b % 256) hn
  have hcongr : uLog_level_of_traced read = uLog_level_of_traced (fun _ => some (b % 256)) :=
    uLog_level_of_traced_loop_congr read _ b (b % 256) hb rfl (char_of_byte_mod b).symm 9 0 _
  rw [← hcongr] at hfin
  cases ht : uLog_level_of_traced read with
  | none => rw [ht] at hfin; simp at hfin
  | some t =>
    rw [ht] at hfin
    simp only [Option.any_some, decide_eq_true_eq] at hfin
    obtain ⟨⟨h1, h2, h3, h4, h5⟩, h6⟩ := hfin
    have hrest : ∀ rest : CString, uLog_level_of (b :: rest) = some t.result := by
      intro rest
      rw [← h6]
      exact uLog_level_of_congr _ _ (by simp [message0, char_of_byte_mod])
    refine ⟨t, rfl, h1, h2, h3, h4, h5, hrest, ?_⟩
    intro h0
    rw [← hrest [], h0]
    exact uLog_level_of_congr _ _ rfl

/-- Witness of C17: a message of which only the first byte, 'x', can be read. -/
theorem uLog_level_of_in_bounds_witness :
    (fun i => if i = 0 then some 120 else none : Nat → Option Nat) 0 = some 120 ∧
    ∃ t, uLog_level_of_traced (fun i => if i = 0 then some 120 else none) = some t ∧
      t.comparisons ≤ 8 ∧ (∀ i ∈ t.levels_read, i ≤ 8) ∧ (∀ j ∈ t.message_read, j = 0) ∧
      t.result = -1 := by
  obtain ⟨t, h1, h2, h3, h4, -, -, h7, -⟩ :=
    uLog_level_of_in_bounds (fun i => if i = 0 then some 120 else none) 120 rfl
  refine ⟨rfl, t, h1, h2, h3, h4, ?_⟩
  have hx : uLog_level_of [120] = some (-1) := by rfl
  have := h7 []
  rw [hx] at this
  exact (Option.some.inj this).symm

/-- C18 (failing input): after `uLog_enable_by_regex("trace", 2)` over the scenario
entries, a state reached by registrations and that call, the third entry's flag
holds 2, which is neither 0 nor 1; the flags sum to 3 while two entries are
enabled. -/
theorem enabled_flag_not_boolean :
    (uLog_enable_by_regex literal_regex 0 3 (cstr "trace") 2 scenario).map
      (fun p => (p.1.mem 3).enabled) = some 2 ∧
    register_all [1, 2, 3] (uLog_init (uLog_ scenario_mem)) = some scenario ∧
    (scenario_trace2.mem 3).enabled ≠ 0 ∧ (scenario_trace2.mem 3).enabled ≠ 1 ∧
    ([3, 2, 1].map (fun a => (scenario_trace2.mem a).enabled)).sum = 3 ∧
    count_enabled scenario_trace2.mem [3, 2, 1] = 2 := by
  refine ⟨by decide, by rfl, by decide, by decide, by decide, by decide⟩

end uLog
